import Mathlib

/-!
Shallow embedding of the TODO-tree plugin (`src/main.ts`).

Text is modelled as `List Char` (the character sequence of a JS string).
JS string operations (`toLowerCase`, `trim`, `split`, `includes`, `indexOf`)
are embedded as executable functions on `List Char`.
-/

set_option linter.unusedVariables false

abbrev Str := List Char

/-- JS `String.prototype.toLowerCase` (character-wise lowering). -/
def toLowerL (s : Str) : Str := s.map Char.toLower

/-- JS `String.prototype.trim`: drop whitespace from both ends. -/
def trimL (s : Str) : Str :=
  ((s.dropWhile Char.isWhitespace).reverse.dropWhile Char.isWhitespace).reverse

/-- JS `s.split(sep)` for a one-character separator: always returns at least
one piece; a trailing separator yields a trailing empty piece. -/
def splitOnCharL (sep : Char) : Str → List Str
  | [] => [[]]
  | c :: cs =>
    if c = sep then [] :: splitOnCharL sep cs
    else
      match splitOnCharL sep cs with
      | [] => [[c]]
      | l :: ls => (c :: l) :: ls

/-- JS `parts.join(sep)` for a one-character separator. -/
def joinCharL (sep : Char) : List Str → Str
  | [] => []
  | [p] => p
  | p :: rest => p ++ sep :: joinCharL sep rest

/-- Does `s` start with `p`? (list-prefix test, executable). -/
def listStartsWith : Str → Str → Bool
  | _, [] => true
  | [], _ :: _ => false
  | a :: as, b :: bs => a = b && listStartsWith as bs

/-- JS `hay.includes(pat)`: substring containment. -/
def listContains (hay pat : Str) : Bool :=
  listStartsWith hay pat ||
    match hay with
    | [] => false
    | _ :: t => listContains t pat

/-- JS `hay.indexOf(pat)`: index of the first occurrence of `pat` in `hay`,
`none` standing for `-1`. -/
def idxOfSub (hay pat : Str) : Option Nat :=
  if listStartsWith hay pat then some 0
  else
    match hay with
    | [] => none
    | _ :: t => (idxOfSub t pat).map (· + 1)

/-! ## Constants and data model (`src/main.ts` lines 4-27) -/

def DEBOUNCE_DELAY : Nat := 300
def HIGHLIGHT_DURATION : Nat := 200
def CSS_HIGHLIGHT_DURATION : Nat := 2000

/-- `interface TodoItem { text: string; line: number }`. -/
structure TodoItem where
  text : Str
  line : Nat
deriving Repr, DecidableEq

/-! ## Scanner (`scanTodos`, lines 268-301) -/

/-- Line 283-285: `searchStrings.some(s => lowerCaseLine.includes(s))`,
with `searchStrings` already lowercased. -/
def lineHasMatch (lowered : List Str) (line : Str) : Bool :=
  lowered.any (fun s => listContains (toLowerL line) s)

/-- The matcher as a unit (lines 271 + 280-285): markers are lowercased,
the line is lowercased, and any-substring-containment is tested. -/
def matchesLine (line : Str) (markers : List Str) : Bool :=
  lineHasMatch (markers.map toLowerL) line

/-- The per-line loop of `scanTodos` (lines 278-293), with the running
0-based line index made explicit. -/
def scanLines (lowered : List Str) (idx : Nat) : List Str → List TodoItem
  | [] => []
  | line :: rest =>
    if lineHasMatch lowered line then
      ⟨trimL line, idx⟩ :: scanLines lowered (idx + 1) rest
    else
      scanLines lowered (idx + 1) rest

/-- Per-file scan: `content.split("\n")` then the line loop. -/
def scanFile (lowered : List Str) (content : Str) : List TodoItem :=
  scanLines lowered 0 (splitOnCharL '\n' content)

/-- The per-file loop of `scanTodos` (lines 273-298): a file enters the
result exactly when its todo list is non-empty. -/
def scanFiles (lowered : List Str) : List (Str × Str) → List (Str × List TodoItem)
  | [] => []
  | (path, content) :: rest =>
    let fileTodos := scanFile lowered content
    if 0 < fileTodos.length then
      (path, fileTodos) :: scanFiles lowered rest
    else
      scanFiles lowered rest

/-- `scanTodos` (lines 268-301): the corpus is the list of
(path, full text) pairs returned by the vault; markers are lowercased once. -/
def scanTodos (corpus : List (Str × Str)) (searchStrings : List Str) :
    List (Str × List TodoItem) :=
  scanFiles (searchStrings.map toLowerL) corpus

/-! ## File tree (`FileTree`, `buildFileTree`, `propagateTodoCounts`) -/

/-- `interface FileTree` (lines 17-24); `children : Record<string, FileTree>`
is modelled as an insertion-ordered association list. -/
inductive FileTree : Type where
  | node (name : Str) (children : List (Str × FileTree)) (isFile : Bool)
      (path : Str) (hasTodos : Bool) (todoCount : Nat)

instance : Inhabited FileTree := ⟨.node [] [] false [] false 0⟩

def FileTree.name : FileTree → Str
  | .node n _ _ _ _ _ => n

def FileTree.children : FileTree → List (Str × FileTree)
  | .node _ cs _ _ _ _ => cs

def FileTree.isFile : FileTree → Bool
  | .node _ _ f _ _ _ => f

def FileTree.path : FileTree → Str
  | .node _ _ _ p _ _ => p

def FileTree.hasTodos : FileTree → Bool
  | .node _ _ _ _ h _ => h

def FileTree.todoCount : FileTree → Nat
  | .node _ _ _ _ _ c => c

/-- Indexing a JS object (`Record<string, T>`) modelled as an ordered
association list: `obj[k]`, `undefined` becoming `none`. -/
def lookupAssoc {α : Type} (k : Str) : List (Str × α) → Option α
  | [] => none
  | (k', v) :: rest => if k' = k then some v else lookupAssoc k rest

/-- JS `currentNode.children[part] = v`: replaces the entry in place if the
key exists, otherwise appends it (object insertion order). -/
def upsertChild (cs : List (Str × FileTree)) (k : Str) (v : FileTree) :
    List (Str × FileTree) :=
  match cs with
  | [] => [(k, v)]
  | (k', v') :: rest =>
    if k' = k then (k, v) :: rest else (k', v') :: upsertChild rest k v

/-- The terminal update of the insertion walk (lines 459-463): the node the
walk ends on gets `hasTodos := true`, and its `todoCount` is set to the
file's match count when it is a file node. -/
def setTodoInfo (t : FileTree) (cnt : Nat) : FileTree :=
  match t with
  | .node nm cs isF p _ oldCnt =>
    .node nm cs isF p true (if isF then cnt else oldCnt)

/-- One key's insertion walk of `buildFileTree` (lines 442-463): walk/create
nodes along `parts`; `prefixParts` is the chain of segments already
consumed, so a node created for segment `part` gets
`path := parts.slice(0, i+1).join("/")`. -/
def insertTodoFile (t : FileTree) (parts : List Str) (prefixParts : List Str)
    (cnt : Nat) : FileTree :=
  match parts with
  | [] => setTodoInfo t cnt
  | part :: rest =>
    let fullParts := prefixParts ++ [part]
    let child :=
      match lookupAssoc part t.children with
      | some c => c
      | none =>
        .node part [] rest.isEmpty (joinCharL '/' fullParts) false 0
    let child' := insertTodoFile child rest fullParts cnt
    match t with
    | .node nm cs isF p hT oldCnt => .node nm (upsertChild cs part child') isF p hT oldCnt

mutual

/-- `propagateTodoCounts` (lines 470-489): post-order pass setting folder
`todoCount` to the sum of the children's counts (the recursive return
values) and `hasTodos` to whether some child count is positive. File
nodes are returned unchanged. -/
def propagateTodoCounts : FileTree → FileTree
  | .node nm cs isF p hT cnt =>
    match isF with
    | true => .node nm cs true p hT cnt
    | false =>
      let cs' := propagateChildren cs
      let total := (cs'.map (fun kc => kc.2.todoCount)).sum
      .node nm cs' false p (cs'.any (fun kc => 0 < kc.2.todoCount)) total

/-- The child loop of `propagateTodoCounts` (lines 478-484). -/
def propagateChildren : List (Str × FileTree) → List (Str × FileTree)
  | [] => []
  | (k, c) :: rest => (k, propagateTodoCounts c) :: propagateChildren rest

end

/-- `buildFileTree` (lines 439-468): fold every scan-result entry into the
pseudo-root, then run the propagation pass. -/
def buildFileTree (todos : List (Str × List TodoItem)) : FileTree :=
  let root : FileTree := .node "root".data [] false [] false 0
  let filled := todos.foldl
    (fun r e => insertTodoFile r (splitOnCharL '/' e.1) [] e.2.length) root
  propagateTodoCounts filled

example : matchesLine "a TODO here".data ["todo".data] = true := by decide
example : matchesLine "nothing".data ["todo".data] = false := by decide
example : scanTodos [("a.md".data, "TODO: fix\nnothing\nFIXME later".data)]
    ["todo".data, "fixme".data] =
    [("a.md".data, [⟨"TODO: fix".data, 0⟩, ⟨"FIXME later".data, 2⟩])] := by decide
example :
    (buildFileTree (scanTodos [("x/y/c.md".data, "todo one".data),
      ("x/z/d.md".data, "fixme two".data)] ["todo".data, "fixme".data])).todoCount = 2 := by
  decide

/-! ## Substring characterization lemmas -/

theorem listStartsWith_iff (s p : Str) :
    listStartsWith s p = true ↔ ∃ t, s = p ++ t := by
  induction p generalizing s with
  | nil => simp [listStartsWith]
  | cons b bs ih =>
    cases s with
    | nil => simp [listStartsWith]
    | cons a as =>
      simp only [listStartsWith, Bool.and_eq_true, decide_eq_true_eq, ih,
        List.cons_append, List.cons.injEq]
      constructor
      · rintro ⟨rfl, t, rfl⟩; exact ⟨t, rfl, rfl⟩
      · rintro ⟨t, rfl, rfl⟩; exact ⟨rfl, t, rfl⟩

theorem listContains_iff (hay pat : Str) :
    listContains hay pat = true ↔ ∃ s t, hay = s ++ pat ++ t := by
  induction hay with
  | nil =>
    simp only [listContains, Bool.or_false, listStartsWith_iff]
    constructor
    · rintro ⟨t, h⟩; exact ⟨[], t, h⟩
    · rintro ⟨s, t, h⟩
      cases s with
      | nil => exact ⟨t, h⟩
      | cons a s' => simp at h
  | cons c hs ih =>
    simp only [listContains, Bool.or_eq_true, listStartsWith_iff, ih]
    constructor
    · rintro (⟨t, h⟩ | ⟨s, t, h⟩)
      · exact ⟨[], t, h⟩
      · exact ⟨c :: s, t, by simp [h]⟩
    · rintro ⟨s, t, h⟩
      cases s with
      | nil => exact Or.inl ⟨t, h⟩
      | cons a s' =>
        simp only [List.cons_append, List.cons.injEq] at h
        exact Or.inr ⟨s', t, h.2⟩

/-! ## Scanner lemmas -/

theorem scanFiles_values_ne_nil (lowered : List Str) (corpus : List (Str × Str)) :
    ∀ e ∈ scanFiles lowered corpus, e.2 ≠ [] := by
  induction corpus with
  | nil => simp [scanFiles]
  | cons pc rest ih =>
    obtain ⟨p, content⟩ := pc
    intro e he
    simp only [scanFiles] at he
    by_cases hlen : 0 < (scanFile lowered content).length
    · rw [if_pos hlen] at he
      rcases List.mem_cons.1 he with rfl | h
      · intro hnil
        have hn : scanFile lowered content = [] := hnil
        rw [hn] at hlen
        simp at hlen
      · exact ih e h
    · rw [if_neg hlen] at he
      exact ih e he

theorem scanFiles_keys_iff (lowered : List Str) (corpus : List (Str × Str)) (p : Str) :
    p ∈ (scanFiles lowered corpus).map Prod.fst ↔
      ∃ content, (p, content) ∈ corpus ∧ scanFile lowered content ≠ [] := by
  induction corpus with
  | nil => simp [scanFiles]
  | cons qc rest ih =>
    obtain ⟨q, content⟩ := qc
    simp only [scanFiles]
    by_cases hlen : 0 < (scanFile lowered content).length
    · rw [if_pos hlen]
      simp only [List.map_cons, List.mem_cons, ih, Prod.mk.injEq]
      constructor
      · rintro (rfl | ⟨c, hc, hne⟩)
        · refine ⟨content, Or.inl ⟨rfl, rfl⟩, ?_⟩
          intro h
          rw [h] at hlen
          simp at hlen
        · exact ⟨c, Or.inr hc, hne⟩
      · rintro ⟨c, (⟨rfl, rfl⟩ | hc), hne⟩
        · exact Or.inl rfl
        · exact Or.inr ⟨c, hc, hne⟩
    · rw [if_neg hlen]
      simp only [ih, List.mem_cons, Prod.mk.injEq]
      constructor
      · rintro ⟨c, hc, hne⟩
        exact ⟨c, Or.inr hc, hne⟩
      · rintro ⟨c, (⟨rfl, rfl⟩ | hc), hne⟩
        · exact absurd (List.length_eq_zero.1 (Nat.eq_zero_of_not_pos hlen)) hne
        · exact ⟨c, hc, hne⟩

theorem splitOnCharL_ne_nil (sep : Char) (s : Str) : splitOnCharL sep s ≠ [] := by
  cases s with
  | nil => simp [splitOnCharL]
  | cons c cs =>
    simp only [splitOnCharL]
    by_cases h : c = sep
    · simp [h]
    · rw [if_neg h]
      cases splitOnCharL sep cs <;> simp

theorem joinCharL_splitOnCharL (sep : Char) (s : Str) :
    joinCharL sep (splitOnCharL sep s) = s := by
  induction s with
  | nil => simp [splitOnCharL, joinCharL]
  | cons c cs ih =>
    simp only [splitOnCharL]
    by_cases h : c = sep
    · rw [if_pos h]
      cases hsp : splitOnCharL sep cs with
      | nil => exact absurd hsp (splitOnCharL_ne_nil sep cs)
      | cons l ls =>
        rw [hsp] at ih
        simp [joinCharL, ih, h]
    · rw [if_neg h]
      cases hsp : splitOnCharL sep cs with
      | nil => exact absurd hsp (splitOnCharL_ne_nil sep cs)
      | cons l ls =>
        rw [hsp] at ih
        cases ls with
        | nil => simp_all [joinCharL]
        | cons l' ls' => simp_all [joinCharL]

theorem splitOnCharL_not_mem (sep : Char) (s : Str) :
    ∀ l ∈ splitOnCharL sep s, sep ∉ l := by
  induction s with
  | nil => simp [splitOnCharL]
  | cons c cs ih =>
    simp only [splitOnCharL]
    by_cases h : c = sep
    · rw [if_pos h]
      intro l hl
      rcases List.mem_cons.1 hl with rfl | hl'
      · simp
      · exact ih l hl'
    · rw [if_neg h]
      cases hsp : splitOnCharL sep cs with
      | nil => exact absurd hsp (splitOnCharL_ne_nil sep cs)
      | cons l ls =>
        intro l' hl'
        rcases List.mem_cons.1 hl' with rfl | hl2
        · intro hmem
          rcases List.mem_cons.1 hmem with rfl | hmem'
          · exact h rfl
          · exact ih l (by rw [hsp]; exact List.mem_cons_self l ls) hmem'
        · exact ih l' (by rw [hsp]; exact List.mem_cons_of_mem l hl2)

theorem scanLines_eq (lowered : List Str) (i : Nat) (ls : List Str) :
    scanLines lowered i ls =
      ((List.enumFrom i ls).filter (fun pr => lineHasMatch lowered pr.2)).map
        (fun pr => ⟨trimL pr.2, pr.1⟩) := by
  induction ls generalizing i with
  | nil => simp [scanLines, List.enumFrom]
  | cons line rest ih =>
    simp only [scanLines, List.enumFrom, List.filter_cons]
    by_cases h : lineHasMatch lowered line
    · simp [h, ih]
    · simp [h, ih]

theorem enumFrom_pairwise_fst_lt (i : Nat) (ls : List Str) :
    List.Pairwise (fun a b : Nat × Str => a.1 < b.1) (List.enumFrom i ls) := by
  induction ls generalizing i with
  | nil => simp [List.enumFrom]
  | cons x xs ih =>
    simp only [List.enumFrom, List.pairwise_cons]
    refine ⟨?_, ih (i + 1)⟩
    rintro ⟨j, y⟩ hy
    have := (List.mem_enumFrom hy).1
    simpa using Nat.lt_of_succ_le this

/-! ## Claim theorems: scanner -/

/-- C1: the matcher returns true iff some marker of the list, lowercased, is
a substring of the lowercased line; for the empty marker list it returns
false on every line. -/
theorem c1_matcher_iff (line : Str) (markers : List Str) :
    (matchesLine line markers = true ↔
      ∃ m ∈ markers, ∃ s t, toLowerL line = s ++ toLowerL m ++ t) ∧
    matchesLine line [] = false := by
  refine ⟨?_, rfl⟩
  simp only [matchesLine, lineHasMatch, List.any_eq_true, List.mem_map]
  constructor
  · rintro ⟨s, ⟨m, hm, rfl⟩, hc⟩
    exact ⟨m, hm, (listContains_iff _ _).1 hc⟩
  · rintro ⟨m, hm, hocc⟩
    exact ⟨toLowerL m, ⟨m, hm, rfl⟩, (listContains_iff _ _).2 hocc⟩

/-- C2: every key of the scan result carries a non-empty match list, and a
path appears as a key exactly when some corpus document with that path has
a matching line; documents with zero matches are omitted. -/
theorem c2_scan_keys (corpus : List (Str × Str)) (searchStrings : List Str) :
    (∀ e ∈ scanTodos corpus searchStrings, e.2 ≠ []) ∧
    (∀ p, p ∈ (scanTodos corpus searchStrings).map Prod.fst ↔
      ∃ content, (p, content) ∈ corpus ∧
        scanFile (searchStrings.map toLowerL) content ≠ []) :=
  ⟨scanFiles_values_ne_nil _ corpus,
   fun p => scanFiles_keys_iff (searchStrings.map toLowerL) corpus p⟩

theorem c2_scan_keys_witness :
    (("a.md".data, [(⟨"TODO x".data, 0⟩ : TodoItem)]) : Str × List TodoItem).2 ≠ [] :=
  (c2_scan_keys [("a.md".data, "TODO x".data)] ["todo".data]).1
    ("a.md".data, [⟨"TODO x".data, 0⟩]) (by decide)

/-- C8: the scanner splits a document on the newline character (the pieces
are exactly a newline-free decomposition that joins back to the text), and
the match list has exactly one entry `{text := line.trim, lineNumber := i}`
for each 0-indexed matching line, in ascending line-number order. -/
theorem c8_scan_lines (markers : List Str) (content : Str) :
    (joinCharL '\n' (splitOnCharL '\n' content) = content ∧
      ∀ l ∈ splitOnCharL '\n' content, '\n' ∉ l) ∧
    scanFile (markers.map toLowerL) content =
      ((List.enumFrom 0 (splitOnCharL '\n' content)).filter
          (fun pr => matchesLine pr.2 markers)).map
        (fun pr => ⟨trimL pr.2, pr.1⟩) ∧
    List.Pairwise (· < ·)
      ((scanFile (markers.map toLowerL) content).map TodoItem.line) := by
  refine ⟨⟨joinCharL_splitOnCharL '\n' content, splitOnCharL_not_mem '\n' content⟩, ?_, ?_⟩
  · exact scanLines_eq (markers.map toLowerL) 0 (splitOnCharL '\n' content)
  · rw [scanFile, scanLines_eq, List.map_map]
    have h1 := enumFrom_pairwise_fst_lt 0 (splitOnCharL '\n' content)
    have h2 := h1.filter (fun pr => lineHasMatch (markers.map toLowerL) pr.2)
    rw [List.pairwise_map]
    exact h2.imp (fun h => h)

/-! ## Tree validators and well-formedness predicates -/

mutual

/-- The invariant claimed for built trees: every folder's `todoCount` is the
sum of its children's counts, and every node's `hasTodos` equals
`todoCount > 0`. -/
def countsOk : FileTree → Bool
  | .node _ cs isF _ hT cnt =>
    (if isF then true else cnt == (cs.map (fun kc => kc.2.todoCount)).sum) &&
    (hT == decide (0 < cnt)) && countsOkChildren cs

def countsOkChildren : List (Str × FileTree) → Bool
  | [] => true
  | (_, c) :: rest => countsOk c && countsOkChildren rest

end

mutual

/-- State of a tree after the insertion fold, before propagation: every file
node has no children, `hasTodos = true` and a positive count. -/
def goodPreB : FileTree → Bool
  | .node _ cs isF _ hT cnt =>
    (if isF then cs.isEmpty && hT && decide (1 ≤ cnt) else true) && goodPreChildren cs

def goodPreChildren : List (Str × FileTree) → Bool
  | [] => true
  | (_, c) :: rest => goodPreB c && goodPreChildren rest

end

/-- The insertion walk for `parts` meets no file node strictly before its
last segment (each existing intermediate child is a folder). -/
def walkOkB : FileTree → List Str → Bool
  | _, [] => true
  | t, p :: rest =>
    match lookupAssoc p t.children with
    | none => true
    | some c => (rest.isEmpty || !c.isFile) && walkOkB c rest

/-- Segment-list prefix test. -/
def partsIsPre : List Str → List Str → Bool
  | [], _ => true
  | _ :: _, [] => false
  | a :: as, b :: bs => a = b && partsIsPre as bs

/-- `a` is a strict prefix of `b` as segment lists. -/
def partsStrictPre (a b : List Str) : Bool := partsIsPre a b && !partsIsPre b a

/-- No path in the list is followed by a path it is a strict ancestor of
(true for any listing of the files of a real vault, where no file path is
a folder of another file). -/
def keysNoStrictPre : List Str → Bool
  | [] => true
  | p :: rest =>
    rest.all (fun q => !partsStrictPre (splitOnCharL '/' p) (splitOnCharL '/' q)) &&
      keysNoStrictPre rest

mutual

/-- Paths of all file nodes of a tree. -/
def filePaths : FileTree → List Str
  | .node _ cs isF p _ _ => (if isF then [p] else []) ++ filePathsChildren cs

def filePathsChildren : List (Str × FileTree) → List Str
  | [] => []
  | (_, c) :: rest => filePaths c ++ filePathsChildren rest

end

/-! ## Induction principle for `FileTree` -/

theorem sizeOf_child_lt {kc : Str × FileTree} {cs : List (Str × FileTree)}
    (h : kc ∈ cs) (nm : Str) (isF : Bool) (p : Str) (hT : Bool) (cnt : Nat) :
    sizeOf kc.2 < sizeOf (FileTree.node nm cs isF p hT cnt) := by
  have h1 : sizeOf kc < sizeOf cs := List.sizeOf_lt_of_mem h
  obtain ⟨k, c⟩ := kc
  simp only [Prod.mk.sizeOf_spec] at h1
  simp only [FileTree.node.sizeOf_spec]
  omega

theorem FileTree.inductionOn {P : FileTree → Prop}
    (h : ∀ nm cs isF p hT cnt,
      (∀ kc ∈ cs, P kc.2) → P (FileTree.node nm cs isF p hT cnt))
    (t : FileTree) : P t := by
  have key : ∀ n, ∀ t : FileTree, sizeOf t ≤ n → P t := by
    intro n
    induction n with
    | zero =>
      intro t ht
      cases t with
      | node nm cs isF p hT cnt =>
        simp only [FileTree.node.sizeOf_spec] at ht
        omega
    | succ n ih =>
      intro t ht
      cases t with
      | node nm cs isF p hT cnt =>
        refine h nm cs isF p hT cnt ?_
        intro kc hkc
        refine ih kc.2 ?_
        have := sizeOf_child_lt hkc nm isF p hT cnt
        omega
  exact key (sizeOf t) t le_rfl

/-! ## Small record/tree lemmas -/

theorem lookupAssoc_upsert_self (cs : List (Str × FileTree)) (k : Str) (v : FileTree) :
    lookupAssoc k (upsertChild cs k v) = some v := by
  induction cs with
  | nil => simp [upsertChild, lookupAssoc]
  | cons e rest ih =>
    obtain ⟨k', v'⟩ := e
    by_cases h : k' = k
    · simp [upsertChild, h, lookupAssoc]
    · simp [upsertChild, h, lookupAssoc, ih]

theorem lookupAssoc_upsert_ne (cs : List (Str × FileTree)) (k q : Str) (v : FileTree)
    (h : q ≠ k) : lookupAssoc q (upsertChild cs k v) = lookupAssoc q cs := by
  have hkq : ¬ k = q := fun he => h he.symm
  induction cs with
  | nil => simp [upsertChild, lookupAssoc, hkq]
  | cons e rest ih =>
    obtain ⟨k', v'⟩ := e
    rw [upsertChild]
    by_cases hk : k' = k
    · have hk'q : ¬ k' = q := by rw [hk]; exact hkq
      rw [if_pos hk, lookupAssoc, if_neg hkq, lookupAssoc, if_neg hk'q]
    · rw [if_neg hk, lookupAssoc, lookupAssoc]
      by_cases hq : k' = q
      · rw [if_pos hq, if_pos hq]
      · rw [if_neg hq, if_neg hq, ih]

theorem lookupAssoc_mem {α : Type} {cs : List (Str × α)} {k : Str} {v : α}
    (h : lookupAssoc k cs = some v) : (k, v) ∈ cs := by
  induction cs with
  | nil => simp [lookupAssoc] at h
  | cons e rest ih =>
    obtain ⟨k', v'⟩ := e
    by_cases hk : k' = k
    · subst hk
      simp [lookupAssoc] at h
      simp [h]
    · rw [lookupAssoc, if_neg hk] at h
      exact List.mem_cons_of_mem _ (ih h)

theorem lookupAssoc_isSome_of_mem_keys {α : Type} {cs : List (Str × α)} {k : Str}
    (h : k ∈ cs.map Prod.fst) : ∃ v, lookupAssoc k cs = some v := by
  induction cs with
  | nil => simp at h
  | cons e rest ih =>
    obtain ⟨k', v'⟩ := e
    by_cases hk : k' = k
    · exact ⟨v', by simp [lookupAssoc, hk]⟩
    · rw [lookupAssoc, if_neg hk]
      refine ih ?_
      rcases List.mem_cons.1 h with h1 | h1
      · exact absurd h1.symm hk
      · exact h1

theorem mem_upsertChild {cs : List (Str × FileTree)} {k : Str} {v : FileTree} :
    ∀ e ∈ upsertChild cs k v, e = (k, v) ∨ e ∈ cs := by
  induction cs with
  | nil => simp [upsertChild]
  | cons e0 rest ih =>
    obtain ⟨k', v'⟩ := e0
    intro e he
    by_cases h : k' = k
    · rw [upsertChild, if_pos h] at he
      rcases List.mem_cons.1 he with rfl | h2
      · exact Or.inl rfl
      · exact Or.inr (List.mem_cons_of_mem _ h2)
    · rw [upsertChild, if_neg h] at he
      rcases List.mem_cons.1 he with rfl | h2
      · exact Or.inr (List.mem_cons_self _ _)
      · rcases ih e h2 with h3 | h3
        · exact Or.inl h3
        · exact Or.inr (List.mem_cons_of_mem _ h3)

theorem insertTodoFile_isFile (parts : List Str) (t : FileTree) (pref : List Str)
    (cnt : Nat) : (insertTodoFile t parts pref cnt).isFile = t.isFile := by
  cases parts <;> cases t <;> rfl

theorem insertTodoFile_name (parts : List Str) (t : FileTree) (pref : List Str)
    (cnt : Nat) : (insertTodoFile t parts pref cnt).name = t.name := by
  cases parts <;> cases t <;> rfl

theorem setTodoInfo_children (t : FileTree) (cnt : Nat) :
    (setTodoInfo t cnt).children = t.children := by
  cases t
  rfl

theorem walkOkB_setTodoInfo (t : FileTree) (cnt : Nat) (l : List Str) :
    walkOkB (setTodoInfo t cnt) l = walkOkB t l := by
  cases l with
  | nil => rfl
  | cons p rest =>
    rw [walkOkB, walkOkB, setTodoInfo_children]

theorem walkOkB_empty_children (t : FileTree) (h : t.children = []) (l : List Str) :
    walkOkB t l = true := by
  cases l with
  | nil => rfl
  | cons p rest =>
    rw [walkOkB, h]
    rfl

theorem goodPreB_elim {t : FileTree} (h : goodPreB t = true) :
    (t.isFile = true → t.children = [] ∧ t.hasTodos = true ∧ 1 ≤ t.todoCount) ∧
      goodPreChildren t.children = true := by
  cases t with
  | node nm cs isF p hT cnt =>
    cases isF with
    | false =>
      rw [goodPreB] at h
      simp only [Bool.false_eq_true, if_false, Bool.true_and] at h
      exact ⟨by simp [FileTree.isFile], h⟩
    | true =>
      rw [goodPreB] at h
      simp only [if_true, Bool.and_eq_true, decide_eq_true_eq, List.isEmpty_iff] at h
      exact ⟨fun _ => ⟨h.1.1.1, h.1.1.2, h.1.2⟩, h.2⟩

theorem goodPreChildren_mem {cs : List (Str × FileTree)}
    (h : goodPreChildren cs = true) : ∀ kc ∈ cs, goodPreB kc.2 = true := by
  induction cs with
  | nil => simp
  | cons e rest ih =>
    obtain ⟨k, c⟩ := e
    rw [goodPreChildren, Bool.and_eq_true] at h
    intro kc hkc
    rcases List.mem_cons.1 hkc with rfl | h2
    · exact h.1
    · exact ih h.2 kc h2

theorem goodPreChildren_upsert {cs : List (Str × FileTree)} {k : Str} {v : FileTree}
    (hcs : goodPreChildren cs = true) (hv : goodPreB v = true) :
    goodPreChildren (upsertChild cs k v) = true := by
  induction cs with
  | nil => simp [upsertChild, goodPreChildren, hv]
  | cons e rest ih =>
    obtain ⟨k', v'⟩ := e
    rw [goodPreChildren, Bool.and_eq_true] at hcs
    by_cases h : k' = k
    · rw [upsertChild, if_pos h, goodPreChildren, Bool.and_eq_true]
      exact ⟨hv, hcs.2⟩
    · rw [upsertChild, if_neg h, goodPreChildren, Bool.and_eq_true]
      exact ⟨hcs.1, ih hcs.2⟩

theorem insertTodoFile_cons (nm : Str) (cs : List (Str × FileTree)) (isF : Bool)
    (pth : Str) (hT : Bool) (cnt0 : Nat) (p : Str) (rest pref : List Str) (cnt : Nat) :
    insertTodoFile (.node nm cs isF pth hT cnt0) (p :: rest) pref cnt =
      .node nm (upsertChild cs p
        (insertTodoFile
          (match lookupAssoc p cs with
           | some c => c
           | none => .node p [] rest.isEmpty (joinCharL '/' (pref ++ [p])) false 0)
          rest (pref ++ [p]) cnt)) isF pth hT cnt0 := rfl

theorem partsStrictPre_cons (p : Str) (as bs : List Str) :
    partsStrictPre (p :: as) (p :: bs) = partsStrictPre as bs := by
  simp [partsStrictPre, partsIsPre]

theorem partsStrictPre_nil_left (qs : List Str) (h : partsStrictPre [] qs = false) :
    qs = [] := by
  cases qs with
  | nil => rfl
  | cons a l => simp [partsStrictPre, partsIsPre] at h

theorem insertTodoFile_cons_some {cs : List (Str × FileTree)} {p : Str} {c : FileTree}
    (nm : Str) (isF : Bool) (pth : Str) (hT : Bool) (cnt0 : Nat)
    (rest pref : List Str) (cnt : Nat) (hl : lookupAssoc p cs = some c) :
    insertTodoFile (.node nm cs isF pth hT cnt0) (p :: rest) pref cnt =
      .node nm (upsertChild cs p (insertTodoFile c rest (pref ++ [p]) cnt))
        isF pth hT cnt0 := by
  rw [insertTodoFile_cons, hl]

theorem insertTodoFile_cons_none {cs : List (Str × FileTree)} {p : Str}
    (nm : Str) (isF : Bool) (pth : Str) (hT : Bool) (cnt0 : Nat)
    (rest pref : List Str) (cnt : Nat) (hl : lookupAssoc p cs = none) :
    insertTodoFile (.node nm cs isF pth hT cnt0) (p :: rest) pref cnt =
      .node nm (upsertChild cs p
        (insertTodoFile (.node p [] rest.isEmpty (joinCharL '/' (pref ++ [p])) false 0)
          rest (pref ++ [p]) cnt)) isF pth hT cnt0 := by
  rw [insertTodoFile_cons, hl]

theorem insertTodoFile_good :
    ∀ (parts : List Str) (t : FileTree) (pref : List Str) (cnt : Nat),
      1 ≤ cnt →
      (t.isFile = true → t.children = []) →
      goodPreChildren t.children = true →
      walkOkB t parts = true →
      (parts ≠ [] → t.isFile = false) →
      goodPreB (insertTodoFile t parts pref cnt) = true := by
  intro parts
  induction parts with
  | nil =>
    intro t pref cnt hcnt hfile hch hwalk hne
    cases t with
    | node nm cs isF pth hT cnt0 =>
      cases isF with
      | true =>
        have hcs : cs = [] := hfile rfl
        subst hcs
        simp [insertTodoFile, setTodoInfo, goodPreB, goodPreChildren, hcnt]
      | false =>
        simp only [FileTree.children] at hch
        simp [insertTodoFile, setTodoInfo, goodPreB, hch]
  | cons p rest ih =>
    intro t pref cnt hcnt hfile hch hwalk hne
    cases t with
    | node nm cs isF pth hT cnt0 =>
      have hisF : isF = false := hne (by simp)
      subst hisF
      simp only [FileTree.children] at hch
      rw [walkOkB] at hwalk
      simp only [FileTree.children] at hwalk
      cases hl : lookupAssoc p cs with
      | some c =>
        rw [hl] at hwalk
        simp only [Bool.and_eq_true] at hwalk
        have hgc : goodPreB c = true := goodPreChildren_mem hch (p, c) (lookupAssoc_mem hl)
        have helim := goodPreB_elim hgc
        have hcf : rest ≠ [] → c.isFile = false := by
          intro hrne
          have hor := hwalk.1
          rw [Bool.or_eq_true] at hor
          rcases hor with h1 | h1
          · exact absurd (List.isEmpty_iff.1 h1) hrne
          · simpa using h1
        have hgood : goodPreB (insertTodoFile c rest (pref ++ [p]) cnt) = true :=
          ih c (pref ++ [p]) cnt hcnt (fun hf => (helim.1 hf).1) helim.2 hwalk.2 hcf
        rw [insertTodoFile_cons_some nm false pth hT cnt0 rest pref cnt hl, goodPreB]
        simp only [Bool.false_eq_true, if_false, Bool.true_and, FileTree.children]
        exact goodPreChildren_upsert hch hgood
      | none =>
        have hgood : goodPreB (insertTodoFile
            (.node p [] rest.isEmpty (joinCharL '/' (pref ++ [p])) false 0)
            rest (pref ++ [p]) cnt) = true := by
          refine ih _ (pref ++ [p]) cnt hcnt (fun _ => rfl) rfl
            (walkOkB_empty_children
              (.node p [] rest.isEmpty (joinCharL '/' (pref ++ [p])) false 0) rfl rest) ?_
          intro hrne
          simp only [FileTree.isFile]
          cases rest with
          | nil => exact absurd rfl hrne
          | cons r rl => rfl
        rw [insertTodoFile_cons_none nm false pth hT cnt0 rest pref cnt hl, goodPreB]
        simp only [Bool.false_eq_true, if_false, Bool.true_and, FileTree.children]
        exact goodPreChildren_upsert hch hgood

theorem insertTodoFile_walkOk :
    ∀ (parts parts' : List Str) (t : FileTree) (pref : List Str) (cnt : Nat),
      walkOkB t parts = true → walkOkB t parts' = true →
      partsStrictPre parts parts' = false →
      walkOkB (insertTodoFile t parts pref cnt) parts' = true := by
  intro parts
  induction parts with
  | nil =>
    intro parts' t pref cnt h1 h2 hsp
    rw [insertTodoFile, walkOkB_setTodoInfo]
    exact h2
  | cons p rest ih =>
    intro parts' t pref cnt h1 h2 hsp
    cases t with
    | node nm cs isF pth hT cnt0 =>
      rw [walkOkB] at h1
      simp only [FileTree.children] at h1
      cases hl : lookupAssoc p cs with
      | some c =>
        rw [hl] at h1
        simp only [Bool.and_eq_true] at h1
        rw [insertTodoFile_cons_some nm isF pth hT cnt0 rest pref cnt hl]
        cases parts' with
        | nil => rfl
        | cons q qs =>
          rw [walkOkB] at h2 ⊢
          simp only [FileTree.children] at h2 ⊢
          by_cases hq : q = p
          · subst hq
            rw [hl] at h2
            simp only [Bool.and_eq_true] at h2
            rw [lookupAssoc_upsert_self]
            rw [partsStrictPre_cons] at hsp
            simp only [Bool.and_eq_true]
            refine ⟨?_, ?_⟩
            · rw [insertTodoFile_isFile]
              exact h2.1
            · exact ih qs c (pref ++ [q]) cnt h1.2 h2.2 hsp
          · rw [lookupAssoc_upsert_ne _ _ _ _ hq]
            exact h2
      | none =>
        rw [insertTodoFile_cons_none nm isF pth hT cnt0 rest pref cnt hl]
        cases parts' with
        | nil => rfl
        | cons q qs =>
          rw [walkOkB] at h2 ⊢
          simp only [FileTree.children] at h2 ⊢
          by_cases hq : q = p
          · subst hq
            rw [lookupAssoc_upsert_self]
            rw [partsStrictPre_cons] at hsp
            simp only [Bool.and_eq_true]
            cases hre : rest with
            | nil =>
              have hqs : qs = [] := partsStrictPre_nil_left qs (by rw [hre] at hsp; exact hsp)
              subst hqs
              refine ⟨by simp, by rw [walkOkB]⟩
            | cons r rest' =>
              subst hre
              refine ⟨?_, ?_⟩
              · rw [insertTodoFile_isFile]
                simp [FileTree.isFile]
              · exact ih qs
                  (.node q [] (r :: rest').isEmpty (joinCharL '/' (pref ++ [q])) false 0)
                  (pref ++ [q]) cnt
                  (walkOkB_empty_children
                    (.node q [] (r :: rest').isEmpty (joinCharL '/' (pref ++ [q])) false 0)
                    rfl _)
                  (walkOkB_empty_children
                    (.node q [] (r :: rest').isEmpty (joinCharL '/' (pref ++ [q])) false 0)
                    rfl _)
                  hsp
          · rw [lookupAssoc_upsert_ne _ _ _ _ hq]
            exact h2

theorem propagateChildren_eq (cs : List (Str × FileTree)) :
    propagateChildren cs = cs.map (fun kc => (kc.1, propagateTodoCounts kc.2)) := by
  induction cs with
  | nil => rfl
  | cons e rest ih =>
    obtain ⟨k, c⟩ := e
    rw [propagateChildren, ih, List.map_cons]

theorem countsOkChildren_of_forall {cs : List (Str × FileTree)}
    (h : ∀ kc ∈ cs, countsOk kc.2 = true) : countsOkChildren cs = true := by
  induction cs with
  | nil => rfl
  | cons e rest ih =>
    obtain ⟨k, c⟩ := e
    rw [countsOkChildren, Bool.and_eq_true]
    exact ⟨h (k, c) (List.mem_cons_self _ _), ih (fun kc hkc => h kc (List.mem_cons_of_mem _ hkc))⟩

theorem any_pos_eq_decide_sum_pos (cs : List (Str × FileTree)) :
    (cs.any fun kc => 0 < kc.2.todoCount) =
      decide (0 < (cs.map (fun kc => kc.2.todoCount)).sum) := by
  induction cs with
  | nil => simp
  | cons e rest ih =>
    obtain ⟨k, c⟩ := e
    simp only [List.any_cons, List.map_cons, List.sum_cons, ih]
    rcases Nat.eq_zero_or_pos c.todoCount with h | h
    · simp [h]
    · have hpos : 0 < c.todoCount + (rest.map (fun kc => kc.2.todoCount)).sum :=
        Nat.add_pos_left h _
      simp [h, hpos]

theorem propagate_countsOk (t : FileTree) :
    goodPreB t = true → countsOk (propagateTodoCounts t) = true := by
  induction t using FileTree.inductionOn with
  | h nm cs isF pth hT cnt ihc =>
    intro hg
    have helim := goodPreB_elim hg
    simp only [FileTree.isFile, FileTree.children, FileTree.hasTodos,
      FileTree.todoCount] at helim
    cases isF with
    | true =>
      obtain ⟨hcs, hhT, hcnt⟩ := helim.1 rfl
      subst hcs
      subst hhT
      rw [propagateTodoCounts, countsOk]
      simp only [countsOkChildren, if_true, Bool.true_and, Bool.and_true, beq_iff_eq]
      simp [Nat.lt_of_lt_of_le Nat.zero_lt_one hcnt]
    | false =>
      rw [propagateTodoCounts, countsOk]
      simp only [Bool.and_eq_true]
      refine ⟨⟨by simp, ?_⟩, ?_⟩
      · rw [any_pos_eq_decide_sum_pos]
        simp
      · refine countsOkChildren_of_forall ?_
        intro kc' hkc'
        rw [propagateChildren_eq] at hkc'
        rcases List.mem_map.1 hkc' with ⟨kc, hkc, rfl⟩
        exact ihc kc hkc (goodPreChildren_mem helim.2 kc hkc)

theorem buildFold_good :
    ∀ (todos : List (Str × List TodoItem)) (t : FileTree),
      (∀ e ∈ todos, e.2 ≠ []) →
      (∀ e ∈ todos, walkOkB t (splitOnCharL '/' e.1) = true) →
      keysNoStrictPre (todos.map Prod.fst) = true →
      t.isFile = false →
      goodPreChildren t.children = true →
      goodPreB (todos.foldl
        (fun r e => insertTodoFile r (splitOnCharL '/' e.1) [] e.2.length) t) = true := by
  intro todos
  induction todos with
  | nil =>
    intro t hne hwalk hkeys hisF hch
    cases t with
    | node nm cs isF pth hT cnt =>
      have hf : isF = false := hisF
      subst hf
      rw [List.foldl_nil, goodPreB]
      simp only [Bool.false_eq_true, if_false, Bool.true_and]
      simpa [FileTree.children] using hch
  | cons e rest ih =>
    obtain ⟨p, items⟩ := e
    intro t hne hwalk hkeys hisF hch
    rw [List.foldl_cons]
    have hne0 := hne (p, items) (List.mem_cons_self _ _)
    have hcnt : 1 ≤ items.length := by
      have hlen : items.length ≠ 0 := fun h0 => hne0 (List.length_eq_zero.1 h0)
      omega
    have hg' : goodPreB (insertTodoFile t (splitOnCharL '/' p) [] items.length) = true :=
      insertTodoFile_good _ t [] items.length hcnt
        (fun hf => absurd (hisF.symm.trans hf) Bool.false_ne_true) hch
        (hwalk (p, items) (List.mem_cons_self _ _))
        (fun _ => hisF)
    have helim' := goodPreB_elim hg'
    rw [List.map_cons, keysNoStrictPre, Bool.and_eq_true] at hkeys
    refine ih _ ?_ ?_ hkeys.2 ?_ helim'.2
    · exact fun e he => hne e (List.mem_cons_of_mem _ he)
    · intro e he
      refine insertTodoFile_walkOk _ _ t [] items.length
        (hwalk (p, items) (List.mem_cons_self _ _))
        (hwalk e (List.mem_cons_of_mem _ he)) ?_
      have hall := hkeys.1
      rw [List.all_eq_true] at hall
      have hq := hall e.1 (List.mem_map_of_mem Prod.fst he)
      simpa using hq
    · rw [insertTodoFile_isFile]
      exact hisF

theorem scanFiles_keys_sublist (lowered : List Str) (corpus : List (Str × Str)) :
    ((scanFiles lowered corpus).map Prod.fst).Sublist (corpus.map Prod.fst) := by
  induction corpus with
  | nil => simp [scanFiles]
  | cons pc rest ih =>
    obtain ⟨p, content⟩ := pc
    rw [scanFiles]
    by_cases h : 0 < (scanFile lowered content).length
    · rw [if_pos h, List.map_cons, List.map_cons]
      exact ih.cons₂ p
    · rw [if_neg h, List.map_cons]
      exact ih.cons p

theorem keysNoStrictPre_iff_pairwise (l : List Str) :
    keysNoStrictPre l = true ↔
      List.Pairwise
        (fun p q => partsStrictPre (splitOnCharL '/' p) (splitOnCharL '/' q) = false) l := by
  induction l with
  | nil => simp [keysNoStrictPre]
  | cons p rest ih =>
    simp only [keysNoStrictPre, Bool.and_eq_true, List.pairwise_cons, ih,
      List.all_eq_true, Bool.not_eq_true']

/-- C3: in every tree the builder produces from a scan result (of a corpus
whose paths are listed as in a real vault, no file path being a strict
ancestor of a later one), every folder node's `todoCount` equals the sum of
its children's `todoCount`, and every node's `hasTodos` equals
`todoCount > 0` (checked recursively by `countsOk`). -/
theorem c3_tree_counts_invariant (corpus : List (Str × Str)) (markers : List Str)
    (hpf : keysNoStrictPre (corpus.map Prod.fst) = true) :
    countsOk (buildFileTree (scanTodos corpus markers)) = true := by
  simp only [buildFileTree, scanTodos]
  refine propagate_countsOk _ ?_
  refine buildFold_good _ _ (scanFiles_values_ne_nil _ _) ?_ ?_ rfl rfl
  · intro e he
    exact walkOkB_empty_children (.node "root".data [] false [] false 0) rfl _
  · rw [keysNoStrictPre_iff_pairwise] at hpf ⊢
    exact List.Pairwise.sublist (scanFiles_keys_sublist _ _) hpf

theorem c3_tree_counts_invariant_witness :
    keysNoStrictPre
      (([("a.md".data, "TODO one".data),
         ("x/b.md".data, "no match\nFIXME two".data)] : List (Str × Str)).map Prod.fst) = true ∧
    countsOk (buildFileTree (scanTodos
      [("a.md".data, "TODO one".data), ("x/b.md".data, "no match\nFIXME two".data)]
      ["todo".data, "fixme".data])) = true :=
  ⟨by decide,
   c3_tree_counts_invariant
     [("a.md".data, "TODO one".data), ("x/b.md".data, "no match\nFIXME two".data)]
     ["todo".data, "fixme".data] (by decide)⟩

/-! ## File-path tracking (for the renderer's todo lookup) -/

theorem filePaths_setTodoInfo (t : FileTree) (cnt : Nat) :
    filePaths (setTodoInfo t cnt) = filePaths t := by
  cases t
  rfl

theorem filePathsChildren_mem (cs : List (Str × FileTree)) (x : Str) :
    x ∈ filePathsChildren cs ↔ ∃ kc ∈ cs, x ∈ filePaths kc.2 := by
  induction cs with
  | nil => simp [filePathsChildren]
  | cons e rest ih =>
    obtain ⟨k, c⟩ := e
    rw [filePathsChildren, List.mem_append, ih]
    constructor
    · rintro (h | ⟨kc, hkc, hx⟩)
      · exact ⟨(k, c), List.mem_cons_self _ _, h⟩
      · exact ⟨kc, List.mem_cons_of_mem _ hkc, hx⟩
    · rintro ⟨kc, hkc, hx⟩
      rcases List.mem_cons.1 hkc with rfl | h
      · exact Or.inl hx
      · exact Or.inr ⟨kc, h, hx⟩

theorem filePathsChildren_upsert {cs : List (Str × FileTree)} {k : Str} {v : FileTree}
    {x : Str} (hx : x ∈ filePathsChildren (upsertChild cs k v)) :
    x ∈ filePathsChildren cs ∨ x ∈ filePaths v := by
  rw [filePathsChildren_mem] at hx
  obtain ⟨kc, hkc, hxk⟩ := hx
  rcases mem_upsertChild kc hkc with rfl | h
  · exact Or.inr hxk
  · exact Or.inl ((filePathsChildren_mem cs x).2 ⟨kc, h, hxk⟩)

theorem filePaths_insert :
    ∀ (parts : List Str) (t : FileTree) (pref : List Str) (cnt : Nat) (x : Str),
      x ∈ filePaths (insertTodoFile t parts pref cnt) →
      x ∈ filePaths t ∨ x = joinCharL '/' (pref ++ parts) := by
  intro parts
  induction parts with
  | nil =>
    intro t pref cnt x hx
    rw [insertTodoFile, filePaths_setTodoInfo] at hx
    exact Or.inl hx
  | cons p rest ih =>
    intro t pref cnt x hx
    cases t with
    | node nm cs isF pth hT cnt0 =>
      cases hl : lookupAssoc p cs with
      | some c =>
        rw [insertTodoFile_cons_some nm isF pth hT cnt0 rest pref cnt hl, filePaths] at hx
        rcases List.mem_append.1 hx with h1 | h1
        · left
          rw [filePaths]
          exact List.mem_append.2 (Or.inl h1)
        · rcases filePathsChildren_upsert h1 with h2 | h2
          · left
            rw [filePaths]
            exact List.mem_append.2 (Or.inr h2)
          · rcases ih c (pref ++ [p]) cnt x h2 with h3 | h3
            · left
              rw [filePaths]
              refine List.mem_append.2 (Or.inr ?_)
              exact (filePathsChildren_mem cs x).2 ⟨(p, c), lookupAssoc_mem hl, h3⟩
            · right
              rw [List.append_assoc] at h3
              exact h3
      | none =>
        rw [insertTodoFile_cons_none nm isF pth hT cnt0 rest pref cnt hl, filePaths] at hx
        rcases List.mem_append.1 hx with h1 | h1
        · left
          rw [filePaths]
          exact List.mem_append.2 (Or.inl h1)
        · rcases filePathsChildren_upsert h1 with h2 | h2
          · left
            rw [filePaths]
            exact List.mem_append.2 (Or.inr h2)
          · rcases ih _ (pref ++ [p]) cnt x h2 with h3 | h3
            · cases rest with
              | nil =>
                right
                simp only [filePaths, filePathsChildren, List.isEmpty_nil, if_true,
                  List.append_nil, List.mem_singleton] at h3
                exact h3
              | cons r rl =>
                simp [filePaths, filePathsChildren] at h3
            · right
              rw [List.append_assoc] at h3
              exact h3

theorem filePathsChildren_propagate {cs : List (Str × FileTree)}
    (h : ∀ kc ∈ cs, filePaths (propagateTodoCounts kc.2) = filePaths kc.2) :
    filePathsChildren (propagateChildren cs) = filePathsChildren cs := by
  induction cs with
  | nil => rfl
  | cons e rest ih =>
    obtain ⟨k, c⟩ := e
    rw [propagateChildren, filePathsChildren, filePathsChildren,
      h (k, c) (List.mem_cons_self _ _),
      ih (fun kc hkc => h kc (List.mem_cons_of_mem _ hkc))]

theorem filePaths_propagate (t : FileTree) :
    filePaths (propagateTodoCounts t) = filePaths t := by
  induction t using FileTree.inductionOn with
  | h nm cs isF pth hT cnt ihc =>
    cases isF with
    | true => rw [propagateTodoCounts]
    | false =>
      rw [propagateTodoCounts, filePaths, filePaths,
        filePathsChildren_propagate (fun kc hkc => ihc kc hkc)]

theorem filePaths_fold :
    ∀ (todos : List (Str × List TodoItem)) (t : FileTree) (x : Str),
      x ∈ filePaths (todos.foldl
        (fun r e => insertTodoFile r (splitOnCharL '/' e.1) [] e.2.length) t) →
      x ∈ filePaths t ∨ x ∈ todos.map Prod.fst := by
  intro todos
  induction todos with
  | nil =>
    intro t x hx
    exact Or.inl hx
  | cons e rest ih =>
    obtain ⟨p, items⟩ := e
    intro t x hx
    rw [List.foldl_cons] at hx
    rcases ih _ x hx with h1 | h1
    · rcases filePaths_insert _ t [] items.length x h1 with h2 | h2
      · exact Or.inl h2
      · right
        rw [List.map_cons]
        rw [List.nil_append, joinCharL_splitOnCharL] at h2
        rw [h2]
        exact List.mem_cons_self _ _
    · exact Or.inr (List.mem_cons_of_mem _ h1)

/-- C10: every path carried by a file node of the built tree is a key of
the scan result the tree was built from, so the renderer's
`this.todos[node.path]` lookup is defined and yields a non-empty match
list. -/
theorem c10_file_paths_defined (corpus : List (Str × Str)) (markers : List Str) :
    ∀ x ∈ filePaths (buildFileTree (scanTodos corpus markers)),
      ∃ l, lookupAssoc x (scanTodos corpus markers) = some l ∧ l ≠ [] := by
  intro x hx
  simp only [buildFileTree] at hx
  rw [filePaths_propagate] at hx
  rcases filePaths_fold _ _ x hx with h1 | h1
  · simp [filePaths, filePathsChildren] at h1
  · obtain ⟨l, hl⟩ := lookupAssoc_isSome_of_mem_keys h1
    exact ⟨l, hl, scanFiles_values_ne_nil (markers.map toLowerL) corpus (x, l)
      (lookupAssoc_mem hl)⟩

theorem c10_file_paths_defined_witness :
    ∃ l, lookupAssoc "a.md".data
      (scanTodos [("a.md".data, "TODO x".data)] ["todo".data]) = some l ∧ l ≠ [] :=
  c10_file_paths_defined [("a.md".data, "TODO x".data)] ["todo".data]
    "a.md".data (by decide)

theorem c8_scan_lines_witness : ('\n' : Char) ∉ "TODO: fix".data :=
  (c8_scan_lines ["todo".data] "TODO: fix\nplain".data).1.2 "TODO: fix".data (by decide)

/-! ## Renderer (`renderTree`, lines 341-437) -/

/-- Icon picked by keyword sniffing of the match text (lines 363-372). -/
inductive IconKind : Type where
  | checkSquare
  | bug
  | pencil
deriving Repr, DecidableEq

def iconFor (text : Str) : IconKind :=
  let lowerCaseText := toLowerL text
  if listContains lowerCaseText "todo".data then .checkSquare
  else if listContains lowerCaseText "fixme".data then .bug
  else if listContains lowerCaseText "note".data then .pencil
  else .checkSquare

/-- One element the renderer appends to the view, in document order: a file
header with its count badge, a todo row, or a collapsible folder header
carrying its `data-folder-path` and its open/closed attribute. -/
inductive RenderEntry : Type where
  | fileEntry (name : Str) (count : Nat) (level : Nat)
  | todoEntry (text : Str) (line : Nat) (icon : IconKind) (level : Nat)
  | folderEntry (name : Str) (path : Str) (count : Nat) (isOpen : Bool) (level : Nat)
deriving Repr, DecidableEq

mutual

/-- `renderTree` (lines 341-437), emitting the flat document-order list of
created elements: a node without todos emits nothing; a file node emits its
header and one row per match (looked up from the todos record by
`node.path`); a non-root folder emits a collapsible header whose initial
open state is `expandedFolders.has(folderPath)` followed by its children at
`level + 1`; the pseudo-root emits only its children, at the same level. -/
def renderTree (todos : List (Str × List TodoItem)) (expandedFolders : List Str)
    (node : FileTree) (level : Nat) (currentPath : Str) : List RenderEntry :=
  match node with
  | .node nm cs isF pth hT cnt =>
    if hT = false then []
    else if isF then
      .fileEntry nm cnt level ::
        ((lookupAssoc pth todos).getD []).map
          (fun it => .todoEntry it.text it.line (iconFor it.text) level)
    else if nm ≠ "root".data then
      let folderPath := if currentPath ≠ [] then currentPath ++ '/' :: nm else nm
      .folderEntry nm folderPath cnt (decide (folderPath ∈ expandedFolders)) level ::
        renderChildren todos expandedFolders cs (level + 1) folderPath
    else
      renderChildren todos expandedFolders cs level currentPath

/-- The `Object.values(node.children)` loops of `renderTree`
(lines 428-430 and 432-434). -/
def renderChildren (todos : List (Str × List TodoItem)) (expandedFolders : List Str) :
    List (Str × FileTree) → Nat → Str → List RenderEntry
  | [], _, _ => []
  | (_, c) :: rest, level, currentPath =>
    renderTree todos expandedFolders c level currentPath ++
      renderChildren todos expandedFolders rest level currentPath

end

def RenderEntry.isOpenFolder : RenderEntry → Bool
  | .folderEntry _ _ _ isOpen _ => isOpen
  | _ => false

/-- Closing one `details` element (line 336). -/
def closeEntry : RenderEntry → RenderEntry
  | .folderEntry nm pth cnt _ lvl => .folderEntry nm pth cnt false lvl
  | e => e

/-- `collapseAllFolders` (lines 334-339): every rendered folder is closed
and the expansion set is cleared. -/
def collapseAllFolders (ui : List RenderEntry) (expandedFolders : List Str) :
    List RenderEntry × List Str :=
  (ui.map closeEntry, [])

theorem renderChildren_mem (todos : List (Str × List TodoItem)) (exp : List Str) :
    ∀ (cs : List (Str × FileTree)) (level : Nat) (cur : Str) (e : RenderEntry),
      e ∈ renderChildren todos exp cs level cur →
      ∃ kc ∈ cs, e ∈ renderTree todos exp kc.2 level cur := by
  intro cs
  induction cs with
  | nil =>
    intro _ _ e he
    rw [renderChildren] at he
    simp at he
  | cons kc0 rest ih =>
    obtain ⟨k, c⟩ := kc0
    intro level cur e he
    rw [renderChildren] at he
    rcases List.mem_append.1 he with h | h
    · exact ⟨(k, c), List.mem_cons_self _ _, h⟩
    · obtain ⟨kc, hkc, hm⟩ := ih level cur e h
      exact ⟨kc, List.mem_cons_of_mem _ hkc, hm⟩

theorem renderTree_folder_open (todos : List (Str × List TodoItem)) (exp : List Str)
    (t : FileTree) :
    ∀ (level : Nat) (currentPath : Str) (nm pth : Str) (cnt : Nat) (op : Bool) (lvl : Nat),
      RenderEntry.folderEntry nm pth cnt op lvl ∈
        renderTree todos exp t level currentPath →
      op = decide (pth ∈ exp) := by
  induction t using FileTree.inductionOn with
  | h nm0 cs isF pth0 hT cnt0 ihc =>
    intro level currentPath nm pth cnt op lvl hmem
    rw [renderTree] at hmem
    by_cases hT0 : hT = false
    · rw [if_pos hT0] at hmem
      simp at hmem
    · rw [if_neg hT0] at hmem
      by_cases hisF : isF = true
      · rw [if_pos hisF] at hmem
        rcases List.mem_cons.1 hmem with h | h
        · exact absurd h (by simp)
        · rcases List.mem_map.1 h with ⟨it, _, h2⟩
          exact absurd h2 (by simp)
      · rw [if_neg hisF] at hmem
        by_cases hroot : nm0 ≠ "root".data
        · rw [if_pos hroot] at hmem
          rcases List.mem_cons.1 hmem with h | h
          · rw [RenderEntry.folderEntry.injEq] at h
            rw [h.2.2.2.1, h.2.1]
          · obtain ⟨kc, hkc, hm⟩ := renderChildren_mem todos exp cs _ _ _ h
            exact ihc kc hkc _ _ nm pth cnt op lvl hm
        · rw [if_neg hroot] at hmem
          obtain ⟨kc, hkc, hm⟩ := renderChildren_mem todos exp cs _ _ _ hmem
          exact ihc kc hkc _ _ nm pth cnt op lvl hm

theorem propagateTodoCounts_name (t : FileTree) :
    (propagateTodoCounts t).name = t.name := by
  cases t with
  | node nm cs isF p hT cnt =>
    cases isF
    · rw [propagateTodoCounts]
      rfl
    · rw [propagateTodoCounts]

theorem propagateTodoCounts_isFile (t : FileTree) :
    (propagateTodoCounts t).isFile = t.isFile := by
  cases t with
  | node nm cs isF p hT cnt =>
    cases isF
    · rw [propagateTodoCounts]
      rfl
    · rw [propagateTodoCounts]

theorem buildFileTree_name_isFile (tds : List (Str × List TodoItem)) :
    (buildFileTree tds).name = "root".data ∧ (buildFileTree tds).isFile = false := by
  simp only [buildFileTree]
  have key : ∀ (l : List (Str × List TodoItem)) (t : FileTree),
      (l.foldl (fun r e => insertTodoFile r (splitOnCharL '/' e.1) [] e.2.length) t).name
        = t.name ∧
      (l.foldl (fun r e => insertTodoFile r (splitOnCharL '/' e.1) [] e.2.length) t).isFile
        = t.isFile := by
    intro l
    induction l with
    | nil => intro t; exact ⟨rfl, rfl⟩
    | cons e rest ih =>
      intro t
      rw [List.foldl_cons]
      refine ⟨(ih _).1.trans (insertTodoFile_name _ _ _ _),
        (ih _).2.trans (insertTodoFile_isFile _ _ _ _)⟩
  refine ⟨(propagateTodoCounts_name _).trans ((key tds _).1),
    (propagateTodoCounts_isFile _).trans ((key tds _).2)⟩

/-- C6: a node whose `hasTodos` flag is false is skipped entirely by the
renderer (nothing of it or of its subtree is emitted); the pseudo-root node
is itself never rendered, only its children are, at the top level; hence a
tree whose root has no todos renders an empty view. -/
theorem c6_render_filtering (todos : List (Str × List TodoItem)) (exp : List Str)
    (t : FileTree) (level : Nat) (currentPath : Str)
    (tds : List (Str × List TodoItem)) :
    (t.hasTodos = false → renderTree todos exp t level currentPath = []) ∧
    ((buildFileTree tds).hasTodos = true →
      renderTree todos exp (buildFileTree tds) level currentPath =
        renderChildren todos exp (buildFileTree tds).children level currentPath) ∧
    ((buildFileTree tds).hasTodos = false →
      renderTree todos exp (buildFileTree tds) level currentPath = []) := by
  refine ⟨?_, ?_, ?_⟩
  · intro h
    cases t with
    | node nm cs isF pth hT cnt =>
      have h' : hT = false := h
      rw [renderTree, if_pos h']
  · intro hT1
    cases hbt : buildFileTree tds with
    | node nm cs isF pth hT cnt =>
      have hnm : nm = "root".data := by
        have := (buildFileTree_name_isFile tds).1
        rw [hbt] at this
        exact this
      have hisF : isF = false := by
        have := (buildFileTree_name_isFile tds).2
        rw [hbt] at this
        exact this
      rw [hbt] at hT1
      have hT' : hT = true := hT1
      subst hnm
      subst hisF
      subst hT'
      rw [renderTree, FileTree.children]
      simp
  · intro hT0
    cases hbt : buildFileTree tds with
    | node nm cs isF pth hT cnt =>
      rw [hbt] at hT0
      have h' : hT = false := hT0
      rw [renderTree, if_pos h']

theorem c6_render_filtering_witness :
    renderTree [] []
      (.node "a.md".data [] true "a.md".data false 0) 0 [] = [] :=
  (c6_render_filtering [] [] (.node "a.md".data [] true "a.md".data false 0)
    0 [] []).1 rfl

/-- C7: a rendered folder is open exactly when its full folder path string
is in the expansion set (match by exact path, not by name); collapse-all
empties the expansion set and closes every rendered folder; and rendering
with an empty expansion set renders every folder closed. -/
theorem c7_expansion_state (todos : List (Str × List TodoItem)) (exp : List Str)
    (t : FileTree) (level : Nat) (currentPath : Str) (ui : List RenderEntry) :
    (∀ (nm pth : Str) (cnt : Nat) (op : Bool) (lvl : Nat),
      RenderEntry.folderEntry nm pth cnt op lvl ∈
        renderTree todos exp t level currentPath →
      op = decide (pth ∈ exp)) ∧
    ((collapseAllFolders ui exp).2 = [] ∧
      ∀ e ∈ (collapseAllFolders ui exp).1, e.isOpenFolder = false) ∧
    (∀ (nm pth : Str) (cnt : Nat) (op : Bool) (lvl : Nat),
      RenderEntry.folderEntry nm pth cnt op lvl ∈
        renderTree todos [] t level currentPath →
      op = false) := by
  refine ⟨?_, ⟨rfl, ?_⟩, ?_⟩
  · intro nm pth cnt op lvl hmem
    exact renderTree_folder_open todos exp t level currentPath nm pth cnt op lvl hmem
  · intro e he
    rcases List.mem_map.1 he with ⟨e0, _, rfl⟩
    cases e0 with
    | fileEntry _ _ _ => rfl
    | todoEntry _ _ _ _ => rfl
    | folderEntry _ _ _ _ _ => rfl
  · intro nm pth cnt op lvl hmem
    have := renderTree_folder_open todos [] t level currentPath nm pth cnt op lvl hmem
    simpa using this

theorem c7_expansion_state_witness :
    (true : Bool) = decide (("d".data : Str) ∈ (["d".data] : List Str)) :=
  (c7_expansion_state
      (scanTodos [("d/a.md".data, "todo x".data)] ["todo".data])
      ["d".data]
      (buildFileTree (scanTodos [("d/a.md".data, "todo x".data)] ["todo".data]))
      0 [] []).1
    "d".data "d".data 1 true 0 (by decide)

/-! ## Refresh debounce (`refreshTodoViews`, lines 114-128) -/

/-- State of the debounced refresh coordinator: the scheduled fire time of
the pending `setTimeout` (if any), the times at which a scan-build-render
cycle has executed, and how many pending timers `clearTimeout` cancelled. -/
structure SchedState where
  pending : Option Nat
  fires : List Nat
  cancels : Nat
deriving Repr, DecidableEq

/-- A corpus-change notification arriving at time `t` (lines 114-128): if a
pending timer's deadline has already passed, its callback has run first
(one cycle executed, `refreshTimeout = null`); the handler then cancels any
still-pending timer and schedules a new one at `t + DEBOUNCE_DELAY`. -/
def notifyAt (s : SchedState) (t : Nat) : SchedState :=
  let s1 : SchedState :=
    match s.pending with
    | some ft =>
      if ft ≤ t then { pending := none, fires := s.fires ++ [ft], cancels := s.cancels }
      else s
    | none => s
  { pending := some (t + DEBOUNCE_DELAY)
    fires := s1.fires
    cancels := s1.cancels + (if s1.pending.isSome then 1 else 0) }

/-- After the burst ends no further notification arrives, so the pending
timer fires and its scan-build-render cycle runs. -/
def flushPending (s : SchedState) : SchedState :=
  match s.pending with
  | some ft => { pending := none, fires := s.fires ++ [ft], cancels := s.cancels }
  | none => s

/-- Run a burst of notifications from the idle state, then let the last
pending timer fire. -/
def debounceRun (times : List Nat) : SchedState :=
  flushPending (times.foldl notifyAt ⟨none, [], 0⟩)

/-- The last element of `t0 :: rest`. -/
def lastD (d : Nat) : List Nat → Nat
  | [] => d
  | x :: xs => lastD x xs

theorem notifyAt_fold_chain :
    ∀ (rest : List Nat) (t0 : Nat) (F : List Nat) (c : Nat),
      List.Chain' (fun a b => a ≤ b ∧ b < a + DEBOUNCE_DELAY) (t0 :: rest) →
      rest.foldl notifyAt ⟨some (t0 + DEBOUNCE_DELAY), F, c⟩ =
        ⟨some (lastD t0 rest + DEBOUNCE_DELAY), F, c + rest.length⟩ := by
  intro rest
  induction rest with
  | nil =>
    intro t0 F c hch
    simp [lastD]
  | cons r rest' ih =>
    intro t0 F c hch
    rw [List.foldl_cons]
    have h1 : (fun a b : Nat => a ≤ b ∧ b < a + DEBOUNCE_DELAY) t0 r :=
      List.chain'_cons.1 hch |>.1
    have hch' : List.Chain' (fun a b => a ≤ b ∧ b < a + DEBOUNCE_DELAY) (r :: rest') :=
      List.chain'_cons.1 hch |>.2
    have hnot : ¬ (t0 + DEBOUNCE_DELAY ≤ r) := by
      have := h1.2
      omega
    have hstep : notifyAt ⟨some (t0 + DEBOUNCE_DELAY), F, c⟩ r =
        ⟨some (r + DEBOUNCE_DELAY), F, c + 1⟩ := by
      rw [notifyAt]
      simp [hnot]
    rw [hstep, ih r F (c + 1) hch', lastD]
    simp only [List.length_cons, SchedState.mk.injEq, and_true, true_and,
      Option.some.injEq, Nat.add_right_cancel_iff]
    omega

/-- C4: for a burst of `N ≥ 1` corpus-change notifications, each arriving
within the 300-unit delay window of the previous one, exactly one
scan-build-render cycle executes, at 300 time-units after the last
notification, and each of the `N - 1` earlier pending timers is
cancelled. -/
theorem c4_debounce (t0 : Nat) (rest : List Nat)
    (hch : List.Chain' (fun a b => a ≤ b ∧ b < a + DEBOUNCE_DELAY) (t0 :: rest)) :
    debounceRun (t0 :: rest) =
      ⟨none, [lastD t0 rest + DEBOUNCE_DELAY], rest.length⟩ ∧
    DEBOUNCE_DELAY = 300 := by
  refine ⟨?_, rfl⟩
  rw [debounceRun, List.foldl_cons]
  have h0 : notifyAt ⟨none, [], 0⟩ t0 = ⟨some (t0 + DEBOUNCE_DELAY), [], 0⟩ := rfl
  rw [h0, notifyAt_fold_chain rest t0 [] 0 hch]
  simp [flushPending]

theorem c4_debounce_witness :
    debounceRun [0, 100, 350] = ⟨none, [650], 2⟩ ∧ DEBOUNCE_DELAY = 300 :=
  c4_debounce 0 [100, 350]
    (List.chain'_cons.2 ⟨⟨by decide, by decide⟩,
      List.chain'_cons.2 ⟨⟨by decide, by decide⟩, List.chain'_singleton _⟩⟩)

/-! ## Navigation selection (`highlightTodoLine`, lines 212-228) -/

/-- The selection set by `editor.setSelection` (anchor and head of the
temporary visual selection). -/
structure EditorSelection where
  anchorLine : Nat
  anchorCh : Nat
  headLine : Nat
  headCh : Nat
deriving Repr, DecidableEq

/-- `highlightTodoLine` (lines 212-228): the trimmed matched text is looked
up case-insensitively in the line's current content with `indexOf`; on a
hit, `createTextSelection` selects from the found index over the trimmed
text's length; otherwise `createLineSelection` selects the whole line. -/
def highlightTodoLine (lineContent : Str) (lineNumber : Nat) (todoText : Str) :
    EditorSelection :=
  let todoTextTrimmed := trimL todoText
  match idxOfSub (toLowerL lineContent) (toLowerL todoTextTrimmed) with
  | some lineIndex =>
    ⟨lineNumber, lineIndex, lineNumber, lineIndex + todoTextTrimmed.length⟩
  | none => ⟨lineNumber, 0, lineNumber, lineContent.length⟩

theorem idxOfSub_some :
    ∀ (hay pat : Str) (i : Nat), idxOfSub hay pat = some i →
      ∃ s u, hay = s ++ pat ++ u ∧ s.length = i := by
  intro hay
  induction hay with
  | nil =>
    intro pat i h
    rw [idxOfSub] at h
    by_cases hs : listStartsWith [] pat = true
    · rw [if_pos hs] at h
      have hi : i = 0 := by
        injection h with h'
        exact h'.symm
      subst hi
      obtain ⟨t, ht⟩ := (listStartsWith_iff [] pat).1 hs
      exact ⟨[], t, ht, rfl⟩
    · rw [if_neg hs] at h
      simp at h
  | cons c hs ih =>
    intro pat i h
    rw [idxOfSub] at h
    by_cases hst : listStartsWith (c :: hs) pat = true
    · rw [if_pos hst] at h
      have hi : i = 0 := by
        injection h with h'
        exact h'.symm
      subst hi
      obtain ⟨t, ht⟩ := (listStartsWith_iff _ pat).1 hst
      exact ⟨[], t, ht, rfl⟩
    · rw [if_neg hst] at h
      cases hrec : idxOfSub hs pat with
      | none =>
        rw [hrec] at h
        simp at h
      | some j =>
        rw [hrec] at h
        simp only [Option.map_some', Option.some.injEq] at h
        obtain ⟨s, u, hsu, hlen⟩ := ih pat j hrec
        refine ⟨c :: s, u, by simp [hsu], ?_⟩
        simp [hlen, ← h]

theorem idxOfSub_isSome (hay pat : Str) :
    (idxOfSub hay pat).isSome = listContains hay pat := by
  induction hay with
  | nil =>
    rw [idxOfSub, listContains]
    by_cases hs : listStartsWith [] pat = true
    · simp [hs]
    · simp [if_neg hs]
      simp at hs
      simp [hs]
  | cons c hs ih =>
    rw [idxOfSub, listContains]
    by_cases hst : listStartsWith (c :: hs) pat = true
    · simp [hst]
    · rw [if_neg hst]
      simp at hst
      simp [hst, ih]

/-- C9: when a match is activated, if the trimmed matched text is still
found case-insensitively in the line content, the selection covers exactly
an occurrence of it (selection start at the found index, selection length
the trimmed text's length); otherwise the whole line is selected; and the
transient CSS highlight lasts 2000 time-units. -/
theorem c9_navigation_selection (lineContent : Str) (lineNumber : Nat) (todoText : Str) :
    ((∃ s u, toLowerL lineContent = s ++ toLowerL (trimL todoText) ++ u) →
      ∃ i, highlightTodoLine lineContent lineNumber todoText =
          ⟨lineNumber, i, lineNumber, i + (trimL todoText).length⟩ ∧
        ∃ s u, toLowerL lineContent = s ++ toLowerL (trimL todoText) ++ u ∧
          s.length = i) ∧
    ((¬ ∃ s u, toLowerL lineContent = s ++ toLowerL (trimL todoText) ++ u) →
      highlightTodoLine lineContent lineNumber todoText =
        ⟨lineNumber, 0, lineNumber, lineContent.length⟩) ∧
    CSS_HIGHLIGHT_DURATION = 2000 := by
  refine ⟨?_, ?_, rfl⟩
  · intro hocc
    have hcontains : listContains (toLowerL lineContent) (toLowerL (trimL todoText)) = true :=
      (listContains_iff _ _).2 hocc
    rw [highlightTodoLine]
    cases hidx : idxOfSub (toLowerL lineContent) (toLowerL (trimL todoText)) with
    | none =>
      exfalso
      have hiso := idxOfSub_isSome (toLowerL lineContent) (toLowerL (trimL todoText))
      rw [hidx, hcontains] at hiso
      simp at hiso
    | some i =>
      refine ⟨i, rfl, ?_⟩
      obtain ⟨s, u, hsu, hlen⟩ := idxOfSub_some _ _ i hidx
      exact ⟨s, u, hsu, hlen⟩
  · intro hnocc
    rw [highlightTodoLine]
    cases hidx : idxOfSub (toLowerL lineContent) (toLowerL (trimL todoText)) with
    | some i =>
      exfalso
      obtain ⟨s, u, hsu, _⟩ := idxOfSub_some _ _ i hidx
      exact hnocc ⟨s, u, hsu⟩
    | none => rfl

theorem c9_navigation_selection_witness :
    ∃ i, highlightTodoLine "x TODO y".data 4 " TODO ".data =
        ⟨4, i, 4, i + (trimL " TODO ".data).length⟩ ∧
      ∃ s u, toLowerL "x TODO y".data =
        s ++ toLowerL (trimL " TODO ".data) ++ u ∧ s.length = i :=
  (c9_navigation_selection "x TODO y".data 4 " TODO ".data).1
    ⟨"x ".data, " y".data, by decide⟩

/-! ## Scan with fallible reads (`scanTodos`, lines 268-301) -/

/-- The per-file loop of `scanTodos` when document reads can fail: the
corpus pairs each path with `some` full text or `none` for a read that
rejects. `await cachedRead(file)` (line 274) has no surrounding try/catch,
so a rejected read makes the whole async `scanTodos` call reject: this is
modelled by `Except.error ()` discarding every document's contribution. -/
def scanFilesE (lowered : List Str) :
    List (Str × Option Str) → Except Unit (List (Str × List TodoItem))
  | [] => .ok []
  | (path, oc) :: rest =>
    match oc with
    | none => .error ()
    | some content =>
      let fileTodos := scanFile lowered content
      match scanFilesE lowered rest with
      | .error e => .error e
      | .ok todosRest =>
        .ok (if 0 < fileTodos.length then (path, fileTodos) :: todosRest else todosRest)

/-- `scanTodos` over a corpus with fallible reads. -/
def scanTodosE (corpus : List (Str × Option Str)) (searchStrings : List Str) :
    Except Unit (List (Str × List TodoItem)) :=
  scanFilesE (searchStrings.map toLowerL) corpus

/-- C5 counterexample: with one unreadable document the scan aborts with
the propagated error — it does not skip the document and scan the rest —
even though the surviving document "b.md" has a match the claim says must
still be contributed. -/
theorem c5_counterexample :
    scanTodosE [("a.md".data, none), ("b.md".data, some "todo b".data)] ["todo".data] =
      Except.error () ∧
    scanTodos [("b.md".data, "todo b".data)] ["todo".data] =
      [("b.md".data, [⟨"todo b".data, 0⟩])] := by
  exact ⟨rfl, by decide⟩

/-- C5 (amended): if reading any document of the corpus fails, the whole
scan aborts with the error and produces no result at all (no document
contributes); only when every read succeeds does the scan return exactly
the scan of the corpus. -/
theorem c5_read_failure_aborts (corpus : List (Str × Option Str)) (ss : List Str) :
    ((∃ p, (p, (none : Option Str)) ∈ corpus) →
      scanTodosE corpus ss = Except.error ()) ∧
    ((∀ e ∈ corpus, e.2 ≠ none) →
      scanTodosE corpus ss =
        Except.ok (scanTodos
          (corpus.filterMap (fun e => e.2.map (fun c => (e.1, c)))) ss)) := by
  rw [scanTodosE, scanTodos]
  induction corpus with
  | nil =>
    constructor
    · rintro ⟨p, hp⟩
      simp at hp
    · intro _
      rfl
  | cons e rest ih =>
    obtain ⟨q, oc⟩ := e
    constructor
    · rintro ⟨p, hp⟩
      cases oc with
      | none => rw [scanFilesE]
      | some content =>
        rw [scanFilesE]
        have hex' : ∃ p, (p, (none : Option Str)) ∈ rest := by
          rcases List.mem_cons.1 hp with heq | hmem
          · have := congrArg Prod.snd heq
            simp at this
          · exact ⟨p, hmem⟩
        rw [ih.1 hex']
    · intro hall
      cases oc with
      | none => exact absurd rfl (hall (q, none) (List.mem_cons_self _ _))
      | some content =>
        rw [scanFilesE, ih.2 (fun e he => hall e (List.mem_cons_of_mem _ he))]
        simp only [List.filterMap_cons, Option.map_some', scanFiles]

theorem c5_read_failure_aborts_witness :
    scanTodosE [("a.md".data, (none : Option Str))] ["todo".data] = Except.error () :=
  (c5_read_failure_aborts [("a.md".data, none)] ["todo".data]).1
    ⟨"a.md".data, by decide⟩
